import Mathlib

/-!
Shallow embedding of the product-service repository layer
(internal/models/product.go, internal/repository/product_memory_repository.go,
internal/repository/product_repository.go, pkg/utils generator, and the
products table schema of pkg/database/postgres.go), together with proofs of
the specification claims about it.

Modelling conventions:
* uuid.UUID is modelled as Nat (an opaque identifier; uuid.New() becomes a
  caller-supplied fresh identifier).
* time.Time is modelled as Nat (an abstract monotone clock reading).
* float64 prices are modelled as Rat; the arithmetic the code performs on
  prices (10.0 + u*990.0) is carried out exactly.
* Go errors are modelled by Option/Except: none / .error means the operation
  returned a non-nil error, and a slice-bounds panic in the in-memory List
  is modelled as none.
* The sync.RWMutex of the in-memory repository makes every repository call
  atomic; the embedding therefore treats each call as one step on the plain
  state (a list of products), which is exactly the state guarded by the lock.
-/

namespace ProductService

/-- Product record (internal/models/product.go, type Product). -/
structure Product where
  id : Nat
  name : String
  description : String
  price : Rat
  created_at : Nat
  updated_at : Nat
deriving DecidableEq, Repr

/-- Creation/update payload (internal/models/product.go, type ProductRequest). -/
structure ProductRequest where
  name : String
  description : String
  price : Rat
deriving DecidableEq, Repr

/-- ToProduct (internal/models/product.go): uuid.New() is the caller-supplied
fresh identifier, time.Now() the caller-supplied clock reading; both
timestamps are set to the same reading. -/
def ProductRequest.toProduct (pr : ProductRequest) (freshId : Nat) (now : Nat) :
    Product :=
  { id := freshId
    name := pr.name
    description := pr.description
    price := pr.price
    created_at := now
    updated_at := now }

/-! In-memory backend (internal/repository/product_memory_repository.go).
The state is the products slice guarded by the RWMutex. -/

namespace Mem

/-- Create: appends the product; always returns a nil error. -/
def create (ps : List Product) (p : Product) : List Product :=
  ps ++ [p]

/-- CreateBulk: appends the whole batch; always returns a nil error. -/
def createBulk (ps : List Product) (batch : List Product) : List Product :=
  ps ++ batch

/-- GetByID: linear scan for the first product with the given id; none models
the "product not found" error. -/
def getByID (ps : List Product) (id : Nat) : Option Product :=
  ps.find? (fun p => p.id == id)

/-- List, with the index arithmetic widened to unbounded Int: startIndex and
endIndex are computed as in the source but without the 64-bit wrap of Go's
int (listPageWrap below models the wrap exactly; the two agree whenever the
computed indices stay inside the int64 range). This widened version backs the
page-concatenation property only, where every inspected offset is bounded by
the dataset length plus the page size and the wrap therefore never fires on a
representable Go slice. The result is some slice on the paths where the Go
code returns normally, and none on the path where the slice expression
products[startIndex:endIndex] panics (an index outside
0 <= startIndex <= endIndex <= len). -/
def listPage (ps : List Product) (page pageSize : Int) : Option (List Product) :=
  let startIndex : Int := (page - 1) * pageSize
  let endIndex : Int := startIndex + pageSize
  if startIndex ≥ (ps.length : Int) then
    some []
  else
    let endIndex : Int :=
      if endIndex > (ps.length : Int) then (ps.length : Int) else endIndex
    if 0 ≤ startIndex ∧ startIndex ≤ endIndex then
      some ((ps.drop startIndex.toNat).take (endIndex - startIndex).toNat)
    else
      none

/-- Wraps an unbounded integer into the two's-complement signed 64-bit range
[-2^63, 2^63), the overflow behavior of Go's int on 64-bit targets. -/
def wrap64 (x : Int) : Int :=
  (x + 2 ^ 63) % 2 ^ 64 - 2 ^ 63

/-- List with Go's fixed-width int arithmetic modelled exactly: every
arithmetic operation the source performs on the indices (the subtraction
page-1, the multiplication, the additions and the slice-length subtraction)
wraps at 64 bits as Go's int does, while comparisons and the slice bounds
check act on the wrapped values. none models the slice-bounds panic. -/
def listPageWrap (ps : List Product) (page pageSize : Int) :
    Option (List Product) :=
  let startIndex : Int := wrap64 (wrap64 (page - 1) * pageSize)
  let endIndex : Int := wrap64 (startIndex + pageSize)
  if startIndex ≥ (ps.length : Int) then
    some []
  else
    let endIndex : Int :=
      if endIndex > (ps.length : Int) then (ps.length : Int) else endIndex
    if 0 ≤ startIndex ∧ startIndex ≤ endIndex then
      some ((ps.drop startIndex.toNat).take (wrap64 (endIndex - startIndex)).toNat)
    else
      none

/-- GetAll: returns a copy of the whole collection. -/
def getAll (ps : List Product) : List Product :=
  ps

/-- Update: linear scan; the first product whose id matches has its name,
description, price overwritten and updated_at refreshed; id and created_at
are untouched. none models the "product not found" error. -/
def update (ps : List Product) (id : Nat) (req : ProductRequest) (now : Nat) :
    Option (List Product) :=
  match ps.findIdx? (fun p => p.id == id) with
  | some i =>
      some (List.modify
        (fun p =>
          { p with
            name := req.name
            description := req.description
            price := req.price
            updated_at := now }) i ps)
  | none => none

/-- Delete, step 1: products[i] = products[len-1]; products = products[:len-1].
The getLast? branch for the empty list is unreachable at call sites (i is a
valid index). -/
def swapRemove (ps : List Product) (i : Nat) : List Product :=
  match ps.getLast? with
  | some last => (ps.set i last).take (ps.length - 1)
  | none => []

/-- Delete: linear scan for the first matching index, then swap-with-last and
truncate; none models the "product not found" error. -/
def delete (ps : List Product) (id : Nat) : Option (List Product) :=
  match ps.findIdx? (fun p => p.id == id) with
  | some i => some (swapRemove ps i)
  | none => none

/-- DeleteAll: resets the collection to empty; always returns a nil error. -/
def deleteAll (_ps : List Product) : List Product :=
  []

/-- Count: returns the length of the collection; always returns a nil error. -/
def count (ps : List Product) : Nat :=
  ps.length

end Mem

/-! Persistent backend (internal/repository/product_repository.go) over the
products table of pkg/database/postgres.go: id UUID PRIMARY KEY, so an INSERT
whose id already exists violates the primary-key constraint and fails; the
state is the bag of rows, kept in insertion order. -/

namespace Db

/-- Single INSERT INTO products: fails on a primary-key (duplicate id)
constraint violation, otherwise adds the row. -/
def insertRow (rows : List Product) (p : Product) : Except String (List Product) :=
  if rows.any (fun r => r.id == p.id) then
    Except.error "duplicate key value violates unique constraint"
  else
    Except.ok (rows ++ [p])

/-- Create: one INSERT. -/
def create (rows : List Product) (p : Product) : Except String (List Product) :=
  insertRow rows p

/-- CreateBulk transaction body: the INSERTs executed one by one against the
transaction snapshot; the first failure aborts the loop. -/
def createBulkTx (tx : List Product) : List Product → Except String (List Product)
  | [] => Except.ok tx
  | p :: rest =>
    match insertRow tx p with
    | Except.ok tx2 => createBulkTx tx2 rest
    | Except.error e => Except.error e

/-- CreateBulk: BeginTxx / per-product INSERT / Commit on success, Rollback on
the first failure. The pair is (rows after the call, error): on commit the
transaction state becomes the table, on rollback the table is exactly the
pre-call rows. -/
def createBulk (rows : List Product) (batch : List Product) :
    List Product × Option String :=
  match createBulkTx rows batch with
  | Except.ok tx => (tx, none)
  | Except.error e => (rows, some e)

/-- GetByID: SELECT * FROM products WHERE id = $1; sql.ErrNoRows (modelled as
none) when no row matches. With the primary key at most one row can match. -/
def getByID (rows : List Product) (id : Nat) : Option Product :=
  rows.find? (fun r => r.id == id)

/-- GetAll: SELECT * FROM products ORDER BY created_at DESC. Ties are returned
in an order the engine does not specify; mergeSort picks one such order. -/
def getAll (rows : List Product) : List Product :=
  rows.mergeSort (fun a b => decide (b.created_at ≤ a.created_at))

/-- Update: UPDATE products SET ... WHERE id = $5. The affected-row count is
not inspected, so the call succeeds (returns nil) even when no row matches. -/
def update (rows : List Product) (id : Nat) (req : ProductRequest) (now : Nat) :
    List Product :=
  rows.map (fun r =>
    if r.id == id then
      { r with
        name := req.name
        description := req.description
        price := req.price
        updated_at := now }
    else r)

/-- Delete: DELETE FROM products WHERE id = $1, then RowsAffected(); none
models the "no product found with the given ID" error when no row matched. -/
def delete (rows : List Product) (id : Nat) : Option (List Product) :=
  if rows.any (fun r => r.id == id) then
    some (rows.filter (fun r => !(r.id == id)))
  else
    none

/-- DeleteAll: DELETE FROM products; always succeeds. -/
def deleteAll (_rows : List Product) : List Product :=
  []

/-- Count: SELECT COUNT(*) FROM products. -/
def count (rows : List Product) : Nat :=
  rows.length

end Db

/-! Random product generator (pkg/utils, in the repository's utils package). -/

/-- Fixed adjective word list. -/
def adjectives : List String :=
  ["Awesome", "Cool", "Smart", "Innovative", "Premium",
   "Classic", "Elegant", "Advanced", "Ultimate", "Pro"]

/-- Fixed product-type word list. -/
def productTypes : List String :=
  ["Gadget", "Device", "Tool", "Accessory", "Electronics",
   "Appliance", "Instrument", "Machine", "Equipment", "System"]

/-- RandomProduct record (pkg/utils). -/
structure RandomProduct where
  id : Nat
  name : String
  description : String
  price : Rat
deriving DecidableEq, Repr

/-- GenerateRandomProduct: rand.Intn(len) is modelled by an arbitrary draw
reduced mod the list length, rand.Float64() by a rational u (in [0,1) for a
real draw), and uuid.New() by a caller-supplied fresh id. -/
def GenerateRandomProduct (freshId adjDraw typeDraw : Nat) (u : Rat) :
    RandomProduct :=
  let adj := adjectives.getD (adjDraw % adjectives.length) ""
  let prodType := productTypes.getD (typeDraw % productTypes.length) ""
  let name := adj ++ " " ++ prodType
  let description := "A " ++ name.toLower ++ " designed for modern needs."
  let price : Rat := 10 + u * 990
  { id := freshId
    name := name
    description := description
    price := price }

/-- GenerateRandomProducts: count independent draws, one product per index. -/
def GenerateRandomProducts (count : Nat) (freshIds adjDraws typeDraws : Nat → Nat)
    (us : Nat → Rat) : List RandomProduct :=
  (List.range count).map
    (fun i => GenerateRandomProduct (freshIds i) (adjDraws i) (typeDraws i) (us i))

/-- Conversion used by GenerateAndSaveBulkProducts (both repositories): the
generated record with both timestamps set to the one clock reading taken for
the batch. -/
def RandomProduct.toProductAt (rp : RandomProduct) (now : Nat) : Product :=
  { id := rp.id
    name := rp.name
    description := rp.description
    price := rp.price
    created_at := now
    updated_at := now }

/-- Concatenation of the in-memory backend pages 1, 2, ... taken until the
first empty page; fuel bounds the number of pages inspected (a panic, which
positive pages never produce, also stops the harvest). -/
def harvest (ps : List Product) (s : Int) : Int → Nat → List Product
  | _, 0 => []
  | page, fuel + 1 =>
    match Mem.listPage ps page s with
    | some [] => []
    | some chunk => chunk ++ harvest ps s (page + 1) fuel
    | none => []

/-- Repository-level operation alphabet for the in-memory backend, as invoked
by the handler layer: create goes through ToProduct (fresh uuid, one clock
reading), bulkGen through GenerateAndSaveBulkProducts (generated records
stamped with one clock reading), and the rest take caller-supplied arguments.
Clock readings and fresh ids appear as data of the operation so that the
uuid-freshness and clock-monotonicity facts of the runtime become explicit
hypotheses. -/
inductive Op where
  | create (req : ProductRequest) (freshId : Nat) (now : Nat)
  | bulkGen (rps : List RandomProduct) (now : Nat)
  | getByID (id : Nat)
  | listPage (page pageSize : Int)
  | getAll
  | update (id : Nat) (req : ProductRequest) (now : Nat)
  | delete (id : Nat)
  | deleteAll
  | count

/-- State transition of one repository call on the in-memory products slice;
read-only calls and failing update/delete leave the state unchanged. -/
def applyOp (ps : List Product) : Op → List Product
  | Op.create req freshId now => Mem.create ps (req.toProduct freshId now)
  | Op.bulkGen rps now => Mem.createBulk ps (rps.map (fun rp => rp.toProductAt now))
  | Op.getByID _ => ps
  | Op.listPage _ _ => ps
  | Op.getAll => ps
  | Op.update id req now => (Mem.update ps id req now).getD ps
  | Op.delete id => (Mem.delete ps id).getD ps
  | Op.deleteAll => Mem.deleteAll ps
  | Op.count => ps

/-- Runtime facts at the moment an operation executes: time.Now() never runs
backwards (clock ≤ now) and uuid.New() never collides (fresh, pairwise
distinct ids). -/
def OpOK (ps : List Product) (clock : Nat) : Op → Prop
  | Op.create _ freshId now => clock ≤ now ∧ ∀ p ∈ ps, p.id ≠ freshId
  | Op.bulkGen rps now =>
      clock ≤ now ∧ (rps.map RandomProduct.id).Nodup ∧
        ∀ p ∈ ps, ∀ rp ∈ rps, p.id ≠ rp.id
  | Op.update _ _ now => clock ≤ now
  | _ => True

/-- Clock reading after an operation ran. -/
def Op.clockAfter (clock : Nat) : Op → Nat
  | Op.create _ _ now => now
  | Op.bulkGen _ now => now
  | Op.update _ _ now => now
  | _ => clock

/-- Run a sequence of repository calls from a state and clock. -/
def runOps (ps : List Product) (clock : Nat) : List Op → List Product
  | [] => ps
  | op :: ops => runOps (applyOp ps op) (op.clockAfter clock) ops

/-- All runtime facts hold along the sequence. -/
def SeqOK (ps : List Product) (clock : Nat) : List Op → Prop
  | [] => True
  | op :: ops => OpOK ps clock op ∧ SeqOK (applyOp ps op) (op.clockAfter clock) ops

/-- The dataset invariant of the specification: timestamps are ordered and ids
are pairwise distinct; the clock bound is the strengthening that makes the
invariant inductive. -/
def Inv (ps : List Product) (clock : Nat) : Prop :=
  (∀ p ∈ ps, p.created_at ≤ p.updated_at ∧ p.updated_at ≤ clock) ∧
    (ps.map Product.id).Nodup

/-- Concrete payload used by the closed witness statements. -/
def wReq : ProductRequest :=
  { name := "Widget", description := "A widget", price := 10 }

/-- Concrete product used by the closed witness statements. -/
def wProd : Product := wReq.toProduct 1 5

/-- Second concrete product used by the closed witness statements. -/
def wProd2 : Product :=
  { id := 2, name := "Gizmo", description := "", price := 3,
    created_at := 6, updated_at := 7 }

/-! Helper lemmas shared by several claim theorems. -/

/-- With a positive page and pageSize, the in-memory List is the half-open
slice starting at (page-1)*pageSize of length at most pageSize. -/
theorem listPage_eq_slice (ps : List Product) (page pageSize : Int)
    (hp : 1 ≤ page) (hs : 1 ≤ pageSize) :
    Mem.listPage ps page pageSize =
      some ((ps.drop ((page - 1) * pageSize).toNat).take pageSize.toNat) := by
  have hst0 : 0 ≤ (page - 1) * pageSize := mul_nonneg (by omega) (by omega)
  unfold Mem.listPage
  by_cases hge : (page - 1) * pageSize ≥ (ps.length : Int)
  · rw [if_pos hge]
    have hlen : ps.length ≤ ((page - 1) * pageSize).toNat := by omega
    rw [List.drop_eq_nil_of_le hlen, List.take_nil]
  · rw [if_neg hge]
    have hlt : (page - 1) * pageSize < (ps.length : Int) := by omega
    have hcond : 0 ≤ (page - 1) * pageSize ∧
        (page - 1) * pageSize ≤
          (if (page - 1) * pageSize + pageSize > (ps.length : Int)
            then (ps.length : Int) else (page - 1) * pageSize + pageSize) := by
      constructor
      · exact hst0
      · by_cases hc : (page - 1) * pageSize + pageSize > (ps.length : Int)
        · rw [if_pos hc]; omega
        · rw [if_neg hc]; omega
    rw [if_pos hcond]
    by_cases hc : (page - 1) * pageSize + pageSize > (ps.length : Int)
    · rw [if_pos hc]
      congr 1
      have hdroplen : (ps.drop ((page - 1) * pageSize).toNat).length =
          ps.length - ((page - 1) * pageSize).toNat := List.length_drop _ _
      rw [List.take_of_length_le, List.take_of_length_le]
      · rw [hdroplen]; omega
      · rw [hdroplen]; omega
    · rw [if_neg hc]
      congr 2
      omega

/-- When the memory List is taken with a positive page and pageSize and the
start index is within range, the returned chunk is nonempty. -/
theorem listPage_chunk_ne_nil (ps : List Product) (page pageSize : Int)
    (hp : 1 ≤ page) (hs : 1 ≤ pageSize)
    (hlt : (page - 1) * pageSize < (ps.length : Int)) :
    (ps.drop ((page - 1) * pageSize).toNat).take pageSize.toNat ≠ [] := by
  have h1 : ((ps.drop ((page - 1) * pageSize).toNat).take pageSize.toNat).length =
      min pageSize.toNat (ps.length - ((page - 1) * pageSize).toNat) := by
    rw [List.length_take, List.length_drop]
  intro hnil
  rw [hnil] at h1
  simp only [List.length_nil] at h1
  have hst0 : 0 ≤ (page - 1) * pageSize := mul_nonneg (by omega) (by omega)
  omega

/-- Values already inside the signed 64-bit range are fixed by wrap64. -/
theorem wrap64_eq_self (x : Int) (h1 : -(2 ^ 63) ≤ x) (h2 : x < 2 ^ 63) :
    Mem.wrap64 x = x := by
  unfold Mem.wrap64
  have hsum : (2 : Int) ^ 63 + 2 ^ 63 = 2 ^ 64 := by norm_num
  have h0 : 0 ≤ x + 2 ^ 63 := by omega
  have hlt : x + 2 ^ 63 < 2 ^ 64 := by omega
  rw [Int.emod_eq_of_lt h0 hlt]
  omega

/-- When the index arithmetic does not overflow int64, the wrapping List
returns the same half-open slice as the widened model. -/
theorem listPageWrap_eq_slice (ps : List Product) (page pageSize : Int)
    (hp : 1 ≤ page) (hs : 1 ≤ pageSize)
    (hnov : (page - 1) * pageSize + pageSize < 2 ^ 63) :
    Mem.listPageWrap ps page pageSize =
      some ((ps.drop ((page - 1) * pageSize).toNat).take pageSize.toNat) := by
  have hp63 : (0 : Int) < 2 ^ 63 := by norm_num
  have hst0 : 0 ≤ (page - 1) * pageSize := mul_nonneg (by omega) (by omega)
  have hpg : page - 1 ≤ (page - 1) * pageSize :=
    le_mul_of_one_le_right (by omega) hs
  have hw1 : Mem.wrap64 (page - 1) = page - 1 :=
    wrap64_eq_self _ (by omega) (by omega)
  have hw2 : Mem.wrap64 ((page - 1) * pageSize) = (page - 1) * pageSize :=
    wrap64_eq_self _ (by omega) (by omega)
  simp only [Mem.listPageWrap]
  rw [hw1, hw2]
  by_cases hge : (page - 1) * pageSize ≥ (ps.length : Int)
  · rw [if_pos hge]
    have hlen : ps.length ≤ ((page - 1) * pageSize).toNat := by omega
    rw [List.drop_eq_nil_of_le hlen, List.take_nil]
  · rw [if_neg hge]
    have hcond : 0 ≤ (page - 1) * pageSize ∧
        (page - 1) * pageSize ≤
          (if Mem.wrap64 ((page - 1) * pageSize + pageSize) > (ps.length : Int)
            then (ps.length : Int)
            else Mem.wrap64 ((page - 1) * pageSize + pageSize)) := by
      refine ⟨hst0, ?_⟩
      by_cases hcl : Mem.wrap64 ((page - 1) * pageSize + pageSize) >
          (ps.length : Int)
      · rw [if_pos hcl]; omega
      · rw [if_neg hcl]
        have hw3 : Mem.wrap64 ((page - 1) * pageSize + pageSize) =
            (page - 1) * pageSize + pageSize :=
          wrap64_eq_self _ (by omega) (by omega)
        omega
    rw [if_pos hcond]
    have hw3 : Mem.wrap64 ((page - 1) * pageSize + pageSize) =
        (page - 1) * pageSize + pageSize :=
      wrap64_eq_self _ (by omega) (by omega)
    rw [hw3]
    by_cases hc : (page - 1) * pageSize + pageSize > (ps.length : Int)
    · rw [if_pos hc]
      have hwd : Mem.wrap64 ((ps.length : Int) - (page - 1) * pageSize) =
          (ps.length : Int) - (page - 1) * pageSize :=
        wrap64_eq_self _ (by omega) (by omega)
      rw [hwd]
      congr 1
      have hdroplen : (ps.drop ((page - 1) * pageSize).toNat).length =
          ps.length - ((page - 1) * pageSize).toNat := List.length_drop _ _
      rw [List.take_of_length_le, List.take_of_length_le]
      · rw [hdroplen]; omega
      · rw [hdroplen]; omega
    · rw [if_neg hc]
      have hwd : Mem.wrap64 ((page - 1) * pageSize + pageSize -
          (page - 1) * pageSize) = pageSize := by
        have hcancel : (page - 1) * pageSize + pageSize -
            (page - 1) * pageSize = pageSize := by ring
        rw [hcancel]
        exact wrap64_eq_self _ (by omega) (by omega)
      rw [hwd]

/-- A successful findIdx? yields an in-range index whose element satisfies the
predicate. -/
theorem findIdx?_found {α : Type} {pred : α → Bool} {ps : List α} {i : Nat}
    (h : ps.findIdx? pred = some i) :
    ∃ hlt : i < ps.length, pred (ps.get ⟨i, hlt⟩) = true := by
  rw [List.findIdx?_eq_some_iff_findIdx_eq] at h
  obtain ⟨hlt, hidx⟩ := h
  refine ⟨hlt, ?_⟩
  have := @List.findIdx_getElem _ pred ps (hidx ▸ hlt)
  simpa [hidx] using this

/-- A member satisfying the predicate forces findIdx? to succeed. -/
theorem findIdx?_isSome_of_mem {α : Type} (pred : α → Bool) {ps : List α} {x : α}
    (hx : x ∈ ps) (hpx : pred x = true) :
    ∃ i, ps.findIdx? pred = some i := by
  cases h : ps.findIdx? pred with
  | some i => exact ⟨i, rfl⟩
  | none =>
      rw [List.findIdx?_eq_none_iff] at h
      have := h x hx
      rw [hpx] at this
      cases this

/-- Swap-with-last-and-truncate removal: putting the removed element back in
front yields a permutation of the original list. -/
theorem swapRemove_perm (ps : List Product) (i : Nat) (h : i < ps.length) :
    (ps[i] :: Mem.swapRemove ps i).Perm ps := by
  have hne : ps ≠ [] := by
    intro hnil; rw [hnil] at h; simp at h
  have hlast : ps.getLast? = some (ps.getLast hne) := List.getLast?_eq_getLast ps hne
  have hlastElem : ps.getLast hne = ps[ps.length - 1] := List.getLast_eq_getElem ps hne
  have hunfold : Mem.swapRemove ps i =
      List.take (ps.length - 1) (ps.set i ps[ps.length - 1]) := by
    unfold Mem.swapRemove
    rw [hlast, hlastElem]
  rw [hunfold]
  have hset : ps.set i ps[ps.length - 1] =
      ps.take i ++ ps[ps.length - 1] :: ps.drop (i + 1) := by
    rw [List.set_eq_take_append_cons_drop, if_pos h]
  rw [hset]
  have htk : List.take (ps.length - 1)
        (ps.take i ++ ps[ps.length - 1] :: ps.drop (i + 1)) =
      ps.take i ++
        List.take (ps.length - 1 - i) (ps[ps.length - 1] :: ps.drop (i + 1)) := by
    have hlen_take : (List.take i ps).length = i := by
      rw [List.length_take]
      exact inf_eq_left.mpr (by omega)
    have h1 : List.take (ps.length - 1) (List.take i ps) = List.take i ps :=
      List.take_of_length_le (by rw [hlen_take]; omega)
    rw [List.take_append_eq_append_take, h1, hlen_take]
  rw [htk]
  by_cases hi : i = ps.length - 1
  · subst hi
    have hz : ps.length - 1 - (ps.length - 1) = 0 := by omega
    rw [hz, List.take_zero, List.append_nil]
    have hps : ps = List.take (ps.length - 1) ps ++ [ps[ps.length - 1]] := by
      conv_lhs => rw [← List.take_append_drop (ps.length - 1) ps]
      congr 1
      rw [List.drop_eq_getElem_cons (by omega)]
      congr 1
      exact List.drop_eq_nil_of_le (by omega)
    conv_rhs => rw [hps]
    exact (List.perm_append_singleton _ _).symm
  · have hi2 : i < ps.length - 1 := by omega
    have hstep : ps.length - 1 - i = (ps.length - 2 - i) + 1 := by omega
    rw [hstep, List.take_succ_cons]
    have hdd : ps.drop (i + 1) =
        List.take (ps.length - 2 - i) (ps.drop (i + 1)) ++ [ps[ps.length - 1]] := by
      conv_lhs => rw [← List.take_append_drop (ps.length - 2 - i) (ps.drop (i + 1))]
      congr 1
      have hlt2 : ps.length - 2 - i < (ps.drop (i + 1)).length := by
        rw [List.length_drop]; omega
      rw [List.drop_eq_getElem_cons hlt2]
      congr 1
      · rw [List.getElem_drop]
        congr 1
        omega
      · apply List.drop_eq_nil_of_le
        rw [List.length_drop]
        omega
    have hps2 : ps = ps.take i ++ ps[i] ::
        (List.take (ps.length - 2 - i) (ps.drop (i + 1)) ++ [ps[ps.length - 1]]) := by
      rw [← hdd]
      conv_lhs => rw [← List.take_append_drop i ps]
      congr 1
      rw [List.drop_eq_getElem_cons h]
    set A := ps.take i
    set C := List.take (ps.length - 2 - i) (ps.drop (i + 1))
    have step1 : List.Perm (ps[i] :: (A ++ ps[ps.length - 1] :: C))
        (A ++ ps[i] :: (ps[ps.length - 1] :: C)) := List.perm_middle.symm
    have step2 : List.Perm (A ++ ps[i] :: (ps[ps.length - 1] :: C))
        (A ++ ps[i] :: (C ++ [ps[ps.length - 1]])) :=
      List.Perm.append_left A
        (List.Perm.cons _ (List.perm_append_singleton _ _).symm)
    have step3 : List.Perm (A ++ ps[i] :: (C ++ [ps[ps.length - 1]])) ps := by
      rw [← hps2]
    exact (step1.trans step2).trans step3

/-- GetByID misses exactly when no product carries the id. -/
theorem getByID_eq_none_iff (ps : List Product) (id : Nat) :
    Mem.getByID ps id = none ↔ ∀ q ∈ ps, q.id ≠ id := by
  unfold Mem.getByID
  rw [List.find?_eq_none]
  constructor
  · intro h q hq
    have := h q hq
    simpa using this
  · intro h q hq
    simpa using h q hq

/-- Deleting a present product (under distinct ids) succeeds, and putting the
product back in front of the remainder is a permutation of the original. -/
theorem delete_found (ps : List Product) (p : Product)
    (hnd : (ps.map Product.id).Nodup) (hm : p ∈ ps) :
    ∃ qs, Mem.delete ps p.id = some qs ∧ (p :: qs).Perm ps := by
  have hpred : (fun q => q.id == p.id) p = true := by simp
  obtain ⟨i, hfind⟩ := findIdx?_isSome_of_mem (fun q => q.id == p.id) hm hpred
  obtain ⟨hlt, hpi⟩ := findIdx?_found hfind
  have hgi : ps.get ⟨i, hlt⟩ = ps[i] := rfl
  have hid : ps[i].id = p.id := by
    rw [hgi] at hpi
    simpa using hpi
  have heq : ps[i] = p :=
    List.inj_on_of_nodup_map hnd (List.getElem_mem hlt) hm hid
  refine ⟨Mem.swapRemove ps i, ?_, ?_⟩
  · unfold Mem.delete
    rw [hfind]
  · have := swapRemove_perm ps i hlt
    rwa [heq] at this

/-- Under distinct ids, updating a present product rewrites the list
pointwise: the matching product gets the new name, description, price and
updated_at, and every other product is untouched. -/
theorem update_eq_map (ps : List Product) (p : Product) (req : ProductRequest)
    (now : Nat) (hnd : (ps.map Product.id).Nodup) (hm : p ∈ ps) :
    Mem.update ps p.id req now =
      some (ps.map (fun q =>
        if q.id = p.id then
          { q with
            name := req.name
            description := req.description
            price := req.price
            updated_at := now }
        else q)) := by
  have hpred : (fun q => q.id == p.id) p = true := by simp
  obtain ⟨i, hfind⟩ := findIdx?_isSome_of_mem (fun q => q.id == p.id) hm hpred
  obtain ⟨hlt, hpi⟩ := findIdx?_found hfind
  have hid : ps[i].id = p.id := by simpa using hpi
  have hndps : ps.Nodup := List.Nodup.of_map _ hnd
  have hupd : Mem.update ps p.id req now =
      some (List.modify
        (fun q =>
          { q with
            name := req.name
            description := req.description
            price := req.price
            updated_at := now }) i ps) := by
    unfold Mem.update
    rw [hfind]
  rw [hupd]
  congr 1
  apply List.ext_getElem
  · rw [List.length_modify, List.length_map]
  · intro k hk1 hk2
    have hklen : k < ps.length := by
      rw [List.length_modify] at hk1
      exact hk1
    rw [List.getElem_modify, List.getElem_map]
    by_cases hik : i = k
    · subst hik
      rw [if_pos rfl, if_pos hid]
    · rw [if_neg hik, if_neg ?_]
      intro hkid
      apply hik
      have heqik : ps[k] = ps[i] :=
        List.inj_on_of_nodup_map hnd (List.getElem_mem hklen)
          (List.getElem_mem hlt) (by rw [hkid, hid])
      have hinj := List.nodup_iff_injective_getElem.mp hndps
      have hfin : (⟨k, hklen⟩ : Fin ps.length) = ⟨i, hlt⟩ := hinj heqik
      exact (congrArg Fin.val hfin).symm

/-- Update misses exactly when no product carries the id. -/
theorem update_eq_none_iff (ps : List Product) (id : Nat) (req : ProductRequest)
    (now : Nat) :
    Mem.update ps id req now = none ↔ ∀ q ∈ ps, q.id ≠ id := by
  unfold Mem.update
  constructor
  · intro h q hq hqid
    cases hfind : ps.findIdx? (fun r => r.id == id) with
    | some i => rw [hfind] at h; cases h
    | none =>
        rw [List.findIdx?_eq_none_iff] at hfind
        have := hfind q hq
        rw [hqid] at this
        simp at this
  · intro h
    cases hfind : ps.findIdx? (fun r => r.id == id) with
    | some i =>
        obtain ⟨hlt, hpi⟩ := findIdx?_found hfind
        have : ps[i].id = id := by simpa using hpi
        exact absurd this (h ps[i] (List.getElem_mem hlt))
    | none => rfl

/-- Everything in the transaction snapshot survives later INSERTs of the
CreateBulk transaction body. -/
theorem createBulkTx_ok_mono (batch : List Product) :
    ∀ tx out, Db.createBulkTx tx batch = Except.ok out → ∀ q ∈ tx, q ∈ out := by
  induction batch with
  | nil =>
      intro tx out h q hq
      unfold Db.createBulkTx at h
      cases h
      exact hq
  | cons p rest ih =>
      intro tx out h q hq
      unfold Db.createBulkTx at h
      by_cases hdup : tx.any (fun r => r.id == p.id)
      · unfold Db.insertRow at h
        rw [if_pos hdup] at h
        cases h
      · unfold Db.insertRow at h
        rw [if_neg hdup] at h
        exact ih (tx ++ [p]) out h q (List.mem_append_left _ hq)

/-- On the commit path every product of the batch is in the committed rows. -/
theorem createBulkTx_ok_mem (batch : List Product) :
    ∀ tx out, Db.createBulkTx tx batch = Except.ok out → ∀ p ∈ batch, p ∈ out := by
  induction batch with
  | nil =>
      intro tx out _ p hp
      cases hp
  | cons q rest ih =>
      intro tx out h p hp
      unfold Db.createBulkTx at h
      by_cases hdup : tx.any (fun r => r.id == q.id)
      · unfold Db.insertRow at h
        rw [if_pos hdup] at h
        cases h
      · unfold Db.insertRow at h
        rw [if_neg hdup] at h
        rcases List.mem_cons.mp hp with hpq | hprest
        · subst hpq
          exact createBulkTx_ok_mono rest (tx ++ [p]) out h p
            (List.mem_append_right _ (List.mem_singleton.mpr rfl))
        · exact ih (tx ++ [q]) out h p hprest

/-- When the batch ids are distinct and disjoint from the table the
transaction commits and appends the whole batch. -/
theorem createBulkTx_ok_of_fresh (batch : List Product) :
    ∀ tx, (batch.map Product.id).Nodup →
      (∀ q ∈ tx, ∀ p ∈ batch, q.id ≠ p.id) →
      Db.createBulkTx tx batch = Except.ok (tx ++ batch) := by
  induction batch with
  | nil =>
      intro tx _ _
      unfold Db.createBulkTx
      rw [List.append_nil]
  | cons p rest ih =>
      intro tx hnd hdisj
      unfold Db.createBulkTx
      have hnodup : ¬tx.any (fun r => r.id == p.id) := by
        rw [List.any_eq_true]
        rintro ⟨r, hr, hrid⟩
        exact hdisj r hr p (List.mem_cons_self _ _) (by simpa using hrid)
      unfold Db.insertRow
      rw [if_neg hnodup]
      have hnd2 : (rest.map Product.id).Nodup := by
        rw [List.map_cons, List.nodup_cons] at hnd
        exact hnd.2
      have hdisj2 : ∀ q ∈ tx ++ [p], ∀ r ∈ rest, q.id ≠ r.id := by
        intro q hq r hr
        rcases List.mem_append.mp hq with hqtx | hqp
        · exact hdisj q hqtx r (List.mem_cons_of_mem _ hr)
        · have hqp2 : q = p := List.mem_singleton.mp hqp
          subst hqp2
          rw [List.map_cons, List.nodup_cons] at hnd
          intro hqr
          exact hnd.1 (hqr ▸ List.mem_map_of_mem Product.id hr)
      show Db.createBulkTx (tx ++ [p]) rest = Except.ok (tx ++ p :: rest)
      rw [ih (tx ++ [p]) hnd2 hdisj2, List.append_assoc]
      rfl

/-- Shape of a single generated product: name is an adjective from the fixed
list, a space, and a noun from the fixed list; the description is derived by
lowercasing the name; the price of a unit draw lies in [10, 1000). -/
theorem generateRandomProduct_shape (freshId adjDraw typeDraw : Nat) (u : Rat)
    (h0 : 0 ≤ u) (h1 : u < 1) :
    (∃ a ∈ adjectives, ∃ t ∈ productTypes,
      (GenerateRandomProduct freshId adjDraw typeDraw u).name = a ++ " " ++ t) ∧
    (GenerateRandomProduct freshId adjDraw typeDraw u).description =
      "A " ++ (GenerateRandomProduct freshId adjDraw typeDraw u).name.toLower ++
        " designed for modern needs." ∧
    (GenerateRandomProduct freshId adjDraw typeDraw u).id = freshId ∧
    10 ≤ (GenerateRandomProduct freshId adjDraw typeDraw u).price ∧
    (GenerateRandomProduct freshId adjDraw typeDraw u).price < 1000 := by
  refine ⟨?_, rfl, rfl, ?_, ?_⟩
  · have hla : adjDraw % adjectives.length < adjectives.length :=
      Nat.mod_lt _ (by decide)
    have hlb : typeDraw % productTypes.length < productTypes.length :=
      Nat.mod_lt _ (by decide)
    refine ⟨adjectives[adjDraw % adjectives.length], List.getElem_mem hla,
      productTypes[typeDraw % productTypes.length], List.getElem_mem hlb, ?_⟩
    simp only [GenerateRandomProduct]
    rw [List.getD_eq_getElem _ _ hla, List.getD_eq_getElem _ _ hlb]
  · simp only [GenerateRandomProduct]
    have : (0 : Rat) ≤ u * 990 := mul_nonneg h0 (by norm_num)
    linarith
  · simp only [GenerateRandomProduct]
    have : u * 990 < 1 * 990 := by
      apply mul_lt_mul_of_pos_right h1
      norm_num
    linarith

/-- Harvesting from any positive page with enough fuel collects exactly the
rest of the collection from the page's start offset on. -/
theorem harvest_eq_drop (ps : List Product) (s : Int) (hs : 1 ≤ s) :
    ∀ fuel : Nat, ∀ page : Int, 1 ≤ page →
      (ps.length : Int) ≤ (page - 1 + fuel) * s →
      harvest ps s page fuel = ps.drop ((page - 1) * s).toNat := by
  intro fuel
  induction fuel with
  | zero =>
      intro page hp hlen
      unfold harvest
      symm
      apply List.drop_eq_nil_of_le
      have hz : ((page : Int) - 1 + (0 : Nat)) * s = (page - 1) * s := by
        push_cast
        ring
      rw [hz] at hlen
      omega
  | succ fuel ih =>
      intro page hp hlen
      unfold harvest
      rw [listPage_eq_slice ps page s hp hs]
      by_cases hstart : (ps.length : Int) ≤ (page - 1) * s
      · have hdrop : ps.drop ((page - 1) * s).toNat = [] :=
          List.drop_eq_nil_of_le (by omega)
        rw [hdrop, List.take_nil]
      · have hne := listPage_chunk_ne_nil ps page s hp hs (by omega)
        cases hc : (ps.drop ((page - 1) * s).toNat).take s.toNat with
        | nil => exact absurd hc hne
        | cons x xs =>
            show (x :: xs) ++ harvest ps s (page + 1) fuel =
              ps.drop ((page - 1) * s).toNat
            rw [← hc]
            have hcond : (ps.length : Int) ≤ ((page + 1) - 1 + fuel) * s := by
              have heq : ((page + 1 : Int) - 1 + fuel) * s =
                  (page - 1 + ((fuel + 1 : Nat) : Int)) * s := by
                push_cast
                ring
              rw [heq]
              exact hlen
            rw [ih (page + 1) (by omega) hcond]
            have hpm : (page + 1 - 1) * s = (page - 1) * s + s := by ring
            have hst0 : 0 ≤ (page - 1) * s := mul_nonneg (by omega) (by omega)
            have hsum : ((page + 1 - 1) * s).toNat =
                ((page - 1) * s).toNat + s.toNat := by
              omega
            rw [hsum, ← List.drop_drop]
            exact List.take_append_drop _ _

/-- Mapping ids over a modify whose function fixes the id leaves the id list
unchanged. -/
theorem map_id_modify (f : Product → Product) (hf : ∀ q, (f q).id = q.id)
    (i : Nat) (ps : List Product) :
    (List.modify f i ps).map Product.id = ps.map Product.id := by
  apply List.ext_getElem
  · rw [List.length_map, List.length_modify, List.length_map]
  · intro k hk1 hk2
    have hklen : k < ps.length := by
      rw [List.length_map, List.length_modify] at hk1
      exact hk1
    rw [List.getElem_map, List.getElem_map, List.getElem_modify]
    by_cases hik : i = k
    · rw [if_pos hik, hf]
    · rw [if_neg hik]

/-- One repository call preserves the dataset invariant, given the runtime
facts (monotone clock, fresh uuids) for that call. -/
theorem inv_step (ps : List Product) (clock : Nat) (op : Op)
    (hinv : Inv ps clock) (hok : OpOK ps clock op) :
    Inv (applyOp ps op) (op.clockAfter clock) := by
  obtain ⟨htime, hids⟩ := hinv
  cases op with
  | create req freshId now =>
      obtain ⟨hclk, hfresh⟩ := hok
      constructor
      · intro p hp
        rcases List.mem_append.mp hp with hmem | hnew
        · have h := htime p hmem
          exact ⟨h.1, le_trans h.2 hclk⟩
        · have hpe : p = req.toProduct freshId now := List.mem_singleton.mp hnew
          subst hpe
          exact ⟨le_rfl, le_rfl⟩
      · show ((ps ++ [req.toProduct freshId now]).map Product.id).Nodup
        rw [List.map_append, List.nodup_append]
        refine ⟨hids, by simp, ?_⟩
        intro a ha hb
        rw [List.mem_map] at ha
        obtain ⟨q, hq, hqid⟩ := ha
        have hb2 : a = freshId := by
          simpa [ProductRequest.toProduct] using hb
        exact hfresh q hq (by rw [hqid, hb2])
  | bulkGen rps now =>
      obtain ⟨hclk, hndrps, hfresh⟩ := hok
      constructor
      · intro p hp
        rcases List.mem_append.mp hp with hmem | hnew
        · have h := htime p hmem
          exact ⟨h.1, le_trans h.2 hclk⟩
        · rw [List.mem_map] at hnew
          obtain ⟨rp, _, hrp⟩ := hnew
          rw [← hrp]
          exact ⟨le_rfl, le_rfl⟩
      · show ((ps ++ rps.map (fun rp => rp.toProductAt now)).map Product.id).Nodup
        rw [List.map_append, List.nodup_append]
        refine ⟨hids, ?_, ?_⟩
        · rw [List.map_map]
          have hcomp : (Product.id ∘ fun rp => rp.toProductAt now) =
              RandomProduct.id := rfl
          rw [hcomp]
          exact hndrps
        · intro a ha hb
          rw [List.mem_map] at ha
          obtain ⟨q, hq, hqid⟩ := ha
          rw [List.map_map, List.mem_map] at hb
          obtain ⟨rp, hrp, hrpid⟩ := hb
          exact hfresh q hq rp hrp (by rw [hqid, ← hrpid]; rfl)
  | getByID id => exact ⟨htime, hids⟩
  | listPage page pageSize => exact ⟨htime, hids⟩
  | getAll => exact ⟨htime, hids⟩
  | update id req now =>
      have hclk : clock ≤ now := hok
      show Inv ((Mem.update ps id req now).getD ps) now
      cases hupd : Mem.update ps id req now with
      | none =>
          refine ⟨?_, hids⟩
          intro p hp
          have h := htime p hp
          exact ⟨h.1, le_trans h.2 hclk⟩
      | some qs =>
          unfold Mem.update at hupd
          cases hfind : ps.findIdx? (fun p => p.id == id) with
          | none => rw [hfind] at hupd; cases hupd
          | some i =>
              rw [hfind] at hupd
              have hqs : qs = List.modify
                  (fun p =>
                    { p with
                      name := req.name
                      description := req.description
                      price := req.price
                      updated_at := now }) i ps := by
                cases hupd
                rfl
              subst hqs
              rw [Option.getD_some]
              refine ⟨?_, ?_⟩
              · intro p hp
                rw [List.mem_iff_getElem] at hp
                obtain ⟨k, hk, hpk⟩ := hp
                have hklen : k < ps.length := by
                  rw [List.length_modify] at hk
                  exact hk
                rw [List.getElem_modify] at hpk
                by_cases hik : i = k
                · rw [if_pos hik] at hpk
                  have h := htime ps[k] (List.getElem_mem hklen)
                  rw [← hpk]
                  show ps[k].created_at ≤ now ∧ now ≤ now
                  exact ⟨by omega, le_rfl⟩
                · rw [if_neg hik] at hpk
                  have h := htime ps[k] (List.getElem_mem hklen)
                  rw [← hpk]
                  exact ⟨h.1, by omega⟩
              · rw [map_id_modify
                    (fun p =>
                      { p with
                        name := req.name
                        description := req.description
                        price := req.price
                        updated_at := now }) (fun q => rfl)]
                exact hids
  | delete id =>
      show Inv ((Mem.delete ps id).getD ps) clock
      cases hdel : Mem.delete ps id with
      | none => exact ⟨htime, hids⟩
      | some qs =>
          unfold Mem.delete at hdel
          cases hfind : ps.findIdx? (fun p => p.id == id) with
          | none => rw [hfind] at hdel; cases hdel
          | some i =>
              rw [hfind] at hdel
              have hqs : qs = Mem.swapRemove ps i := by
                cases hdel
                rfl
              subst hqs
              rw [Option.getD_some]
              obtain ⟨hlt, _⟩ := findIdx?_found hfind
              have hperm := swapRemove_perm ps i hlt
              refine ⟨?_, ?_⟩
              · intro p hp
                exact htime p (hperm.subset (List.mem_cons_of_mem _ hp))
              · have hpermids := hperm.map Product.id
                have hnd2 : ((ps[i] :: Mem.swapRemove ps i).map Product.id).Nodup :=
                  hpermids.nodup_iff.mpr hids
                rw [List.map_cons, List.nodup_cons] at hnd2
                exact hnd2.2
  | deleteAll => exact ⟨by simp [Mem.deleteAll, applyOp], by simp [Mem.deleteAll, applyOp]⟩
  | count => exact ⟨htime, hids⟩

/-- The invariant holds after any sequence of calls whose runtime facts
hold. -/
theorem inv_run (ops : List Op) :
    ∀ ps clock, Inv ps clock → SeqOK ps clock ops →
      ∃ clock2, Inv (runOps ps clock ops) clock2 := by
  induction ops with
  | nil =>
      intro ps clock hinv _
      exact ⟨clock, hinv⟩
  | cons op ops ih =>
      intro ps clock hinv hok
      obtain ⟨hop, hrest⟩ := hok
      exact ih (applyOp ps op) (op.clockAfter clock) (inv_step ps clock op hinv hop)
        hrest

/-! Claim theorems. -/

/-- C1: CreateBulk is all-or-nothing on both backends. The in-memory backend
always succeeds and the whole batch is in the resulting dataset; the
persistent backend either commits so that every product of the batch is in
the table, or any insert failure rolls the table back to exactly the pre-call
rows — no partial state on either backend. -/
theorem createBulk_all_or_nothing (mem rows batch : List Product) :
    (∀ p ∈ batch, p ∈ Mem.createBulk mem batch) ∧
    ((Db.createBulk rows batch).2 = none →
      ∀ p ∈ batch, p ∈ (Db.createBulk rows batch).1) ∧
    (∀ e, (Db.createBulk rows batch).2 = some e →
      (Db.createBulk rows batch).1 = rows) := by
  refine ⟨fun p hp => List.mem_append_right _ hp, ?_, ?_⟩
  · intro hok p hp
    unfold Db.createBulk at hok ⊢
    cases htx : Db.createBulkTx rows batch with
    | ok tx =>
        exact createBulkTx_ok_mem batch rows tx htx p hp
    | error e =>
        rw [htx] at hok
        cases hok
  · intro e he
    unfold Db.createBulk at he ⊢
    cases htx : Db.createBulkTx rows batch with
    | ok tx =>
        rw [htx] at he
        cases he
    | error e2 => rfl

/-- Witness for C1: a batch of one fresh product commits and is in the table;
re-inserting an existing id fails and leaves the table exactly as before. -/
theorem createBulk_all_or_nothing_witness :
    wProd ∈ (Db.createBulk [] [wProd]).1 ∧
      (Db.createBulk [wProd] [wProd]).1 = [wProd] :=
  ⟨(createBulk_all_or_nothing [] [] [wProd]).2.1 rfl wProd (by simp),
   (createBulk_all_or_nothing [] [wProd] [wProd]).2.2
     "duplicate key value violates unique constraint" rfl⟩

/-- Counterexample to C2 as universally stated: page 2^61+1 and pageSize 4
are both at least 1, yet on a one-product store Go's int arithmetic wraps
startIndex = 2^61 * 4 to -2^63, the bounds check rejects it and the slice
access panics (modelled as none) — List does not succeed with the promised
slice for every page >= 1, pageSize >= 1. -/
theorem listPageWrap_overflow_panics :
    1 ≤ ((2 : Int) ^ 61 + 1) ∧ 1 ≤ (4 : Int) ∧
      Mem.listPageWrap [wProd2] (2 ^ 61 + 1) 4 = none :=
  ⟨by norm_num, by norm_num, by decide⟩

/-- C2 (amended): for page >= 1 and pageSize >= 1 such that the index
arithmetic does not overflow int64 ((page-1)*pageSize + pageSize < 2^63),
the in-memory List succeeds and returns exactly the half-open slice starting
at (page-1)*pageSize of length at most pageSize, in insertion order; in
particular it returns the empty list (not an error) when the start index
reaches the size, and the whole dataset for page 1 when pageSize covers the
size. -/
theorem listPageWrap_returns_slice (ps : List Product) (page pageSize : Int)
    (hp : 1 ≤ page) (hs : 1 ≤ pageSize)
    (hnov : (page - 1) * pageSize + pageSize < 2 ^ 63) :
    Mem.listPageWrap ps page pageSize =
      some ((ps.drop ((page - 1) * pageSize).toNat).take pageSize.toNat) ∧
    ((ps.length : Int) ≤ (page - 1) * pageSize →
      Mem.listPageWrap ps page pageSize = some []) ∧
    (page = 1 → (ps.length : Int) ≤ pageSize →
      Mem.listPageWrap ps page pageSize = some ps) := by
  refine ⟨listPageWrap_eq_slice ps page pageSize hp hs hnov, ?_, ?_⟩
  · intro hge
    rw [listPageWrap_eq_slice ps page pageSize hp hs hnov,
      List.drop_eq_nil_of_le (by omega), List.take_nil]
  · intro hpage hlen
    subst hpage
    rw [listPageWrap_eq_slice ps 1 pageSize le_rfl hs hnov]
    simp only [sub_self, zero_mul, Int.toNat_zero, List.drop_zero]
    rw [List.take_of_length_le (by omega)]

/-- Witness for C2 (the spec example): page 1 of size 10 over five products
returns all five with no error. -/
theorem listPageWrap_returns_slice_witness :
    Mem.listPageWrap [wProd, wProd2, wProd, wProd2, wProd] 1 10 =
      some [wProd, wProd2, wProd, wProd2, wProd] :=
  (listPageWrap_returns_slice [wProd, wProd2, wProd, wProd2, wProd] 1 10
    (by norm_num) (by norm_num) (by norm_num)).2.2 rfl (by simp)

/-- C4: converting a valid payload and creating it, then reading the fresh id
back, returns a product whose name, description and price are the payload's,
whose id is the fresh id, and whose created_at equals its updated_at. -/
theorem create_then_getByID (pr : ProductRequest) (ps : List Product)
    (freshId now : Nat) (hfresh : ∀ q ∈ ps, q.id ≠ freshId) :
    Mem.getByID (Mem.create ps (pr.toProduct freshId now)) freshId =
      some (pr.toProduct freshId now) ∧
    (pr.toProduct freshId now).name = pr.name ∧
    (pr.toProduct freshId now).description = pr.description ∧
    (pr.toProduct freshId now).price = pr.price ∧
    (pr.toProduct freshId now).id = freshId ∧
    (pr.toProduct freshId now).created_at = (pr.toProduct freshId now).updated_at := by
  refine ⟨?_, rfl, rfl, rfl, rfl, rfl⟩
  unfold Mem.getByID Mem.create
  rw [List.find?_append]
  have h1 : ps.find? (fun p => p.id == freshId) = none := by
    rw [List.find?_eq_none]
    intro q hq
    simpa using hfresh q hq
  rw [h1]
  simp [ProductRequest.toProduct]

/-- Witness for C4: creating the Widget payload in the empty store and reading
it back. -/
theorem create_then_getByID_witness :
    Mem.getByID (Mem.create [] (wReq.toProduct 1 5)) 1 = some (wReq.toProduct 1 5) :=
  (create_then_getByID wReq [] 1 5 (by simp)).1

/-- C5: deleting a present product (ids pairwise distinct) succeeds; the
remainder is the original collection minus that product as a multiset, one
shorter, and a subsequent GetByID of the deleted id fails with not-found. -/
theorem delete_then_getByID (ps : List Product) (p : Product)
    (hm : p ∈ ps) (hnd : (ps.map Product.id).Nodup) :
    ∃ qs, Mem.delete ps p.id = some qs ∧
      qs.length = ps.length - 1 ∧
      (p :: qs).Perm ps ∧
      Mem.getByID qs p.id = none := by
  obtain ⟨qs, hdel, hperm⟩ := delete_found ps p hnd hm
  refine ⟨qs, hdel, ?_, hperm, ?_⟩
  · have hl := hperm.length_eq
    rw [List.length_cons] at hl
    omega
  · rw [getByID_eq_none_iff]
    intro q hq hqid
    have hperm_ids : ((p :: qs).map Product.id).Perm (ps.map Product.id) :=
      hperm.map _
    have hnd2 : ((p :: qs).map Product.id).Nodup := hperm_ids.nodup_iff.mpr hnd
    rw [List.map_cons, List.nodup_cons] at hnd2
    exact hnd2.1 (hqid ▸ List.mem_map_of_mem Product.id hq)

/-- Witness for C5: deleting the only product of a one-element store. -/
theorem delete_then_getByID_witness :
    ∃ qs, Mem.delete [wProd2] wProd2.id = some qs ∧
      qs.length = [wProd2].length - 1 ∧
      (wProd2 :: qs).Perm [wProd2] ∧
      Mem.getByID qs wProd2.id = none :=
  delete_then_getByID [wProd2] wProd2 (by simp) (by simp)

/-- C7: with pairwise-distinct ids, updating an existing id succeeds and
rewrites exactly the matching product's name, description, price and
updated_at, keeping its id and created_at and every other product untouched;
updating a missing id returns not-found (and the state is unchanged). -/
theorem update_frame (ps : List Product) (id : Nat) (req : ProductRequest)
    (now : Nat) (hnd : (ps.map Product.id).Nodup) :
    ((∃ p ∈ ps, p.id = id) →
      Mem.update ps id req now =
        some (ps.map (fun q =>
          if q.id = id then
            { q with
              name := req.name
              description := req.description
              price := req.price
              updated_at := now }
          else q))) ∧
    ((∀ p ∈ ps, p.id ≠ id) → Mem.update ps id req now = none) := by
  constructor
  · rintro ⟨p, hp, hpid⟩
    subst hpid
    exact update_eq_map ps p req now hnd hp
  · exact (update_eq_none_iff ps id req now).mpr

/-- Witness for C7: updating the one present product, and updating a missing
id, on a one-element store. -/
theorem update_frame_witness :
    Mem.update [wProd2] 2 wReq 9 =
      some [{ wProd2 with
        name := wReq.name
        description := wReq.description
        price := wReq.price
        updated_at := 9 }] ∧
    Mem.update [wProd2] 3 wReq 9 = none := by
  constructor
  · have h := (update_frame [wProd2] 2 wReq 9 (by simp)).1
      ⟨wProd2, by simp, by simp [wProd2]⟩
    rw [h]
    simp [wProd2]
  · exact (update_frame [wProd2] 3 wReq 9 (by simp)).2
      (by intro p hp; simp at hp; subst hp; simp [wProd2])

/-- Counterexample to C10 as stated, from Go's int wrap, refuting both
halves: page 2^61+1 with pageSize 4 (page >= 1, pageSize >= 0) wraps
startIndex to -2^63 and the slice access panics, so the call is not total
under the positivity precondition alone; and page -(2^62)+1 with pageSize 4
(page <= 0, pageSize >= 1) wraps the product (-2^62)*4 to exactly 0, so
startIndex is not negative and the call returns a normal non-empty result
instead of going out of bounds. -/
theorem listPageWrap_wrap_anomalies :
    Mem.listPageWrap [wProd] (2 ^ 61 + 1) 4 = none ∧
      Mem.listPageWrap [wProd] (-(2 ^ 62) + 1) 4 = some [wProd] :=
  ⟨by decide, by decide⟩

/-- C10 (amended): the in-memory List never panics when page ≥ 1 and
pageSize ≥ 0, provided page is an int64 value and the index arithmetic does
not overflow int64 (the computed indices are then in bounds after the two
checks); and for page ≤ 0 with pageSize ≥ 1, provided the product does not
wrap past the int64 minimum ((1-page)*pageSize ≤ 2^63), the computed
startIndex is negative and the slice access is out of bounds — the call
panics instead of returning the promised empty result. -/
theorem listPageWrap_bounds_safety (ps : List Product) (page pageSize : Int) :
    (1 ≤ page → page < 2 ^ 63 → 0 ≤ pageSize →
      (page - 1) * pageSize + pageSize < 2 ^ 63 →
      (Mem.listPageWrap ps page pageSize).isSome = true) ∧
    (page ≤ 0 → 1 ≤ pageSize → (1 - page) * pageSize ≤ 2 ^ 63 →
      Mem.wrap64 (Mem.wrap64 (page - 1) * pageSize) < 0 ∧
      Mem.listPageWrap ps page pageSize = none) := by
  have hp63 : (0 : Int) < 2 ^ 63 := by norm_num
  constructor
  · intro hp hpage hs hnov
    have hst0 : 0 ≤ (page - 1) * pageSize := mul_nonneg (by omega) hs
    have hw1 : Mem.wrap64 (page - 1) = page - 1 :=
      wrap64_eq_self _ (by omega) (by omega)
    have hw2 : Mem.wrap64 ((page - 1) * pageSize) = (page - 1) * pageSize :=
      wrap64_eq_self _ (by omega) (by omega)
    simp only [Mem.listPageWrap]
    rw [hw1, hw2]
    by_cases hge : (page - 1) * pageSize ≥ (ps.length : Int)
    · rw [if_pos hge]
      rfl
    · rw [if_neg hge]
      have hcond : 0 ≤ (page - 1) * pageSize ∧
          (page - 1) * pageSize ≤
            (if Mem.wrap64 ((page - 1) * pageSize + pageSize) > (ps.length : Int)
              then (ps.length : Int)
              else Mem.wrap64 ((page - 1) * pageSize + pageSize)) := by
        refine ⟨hst0, ?_⟩
        by_cases hcl : Mem.wrap64 ((page - 1) * pageSize + pageSize) >
            (ps.length : Int)
        · rw [if_pos hcl]; omega
        · rw [if_neg hcl]
          have hw3 : Mem.wrap64 ((page - 1) * pageSize + pageSize) =
              (page - 1) * pageSize + pageSize :=
            wrap64_eq_self _ (by omega) (by omega)
          omega
      rw [if_pos hcond]
      rfl
  · intro hp hs hbound
    have h1p : 1 - page ≤ (1 - page) * pageSize :=
      le_mul_of_one_le_right (by omega) hs
    have hneg : (page - 1) * pageSize = -((1 - page) * pageSize) := by ring
    have hw1 : Mem.wrap64 (page - 1) = page - 1 :=
      wrap64_eq_self _ (by omega) (by omega)
    have hw2 : Mem.wrap64 ((page - 1) * pageSize) = (page - 1) * pageSize :=
      wrap64_eq_self _ (by omega) (by omega)
    constructor
    · rw [hw1, hw2]
      omega
    · simp only [Mem.listPageWrap]
      rw [hw1, hw2]
      have hge : ¬((page - 1) * pageSize ≥ (ps.length : Int)) := by
        have hlen0 : (0 : Int) ≤ (ps.length : Int) := Int.natCast_nonneg _
        omega
      rw [if_neg hge]
      have hcond : ¬(0 ≤ (page - 1) * pageSize ∧
          (page - 1) * pageSize ≤
            (if Mem.wrap64 ((page - 1) * pageSize + pageSize) > (ps.length : Int)
              then (ps.length : Int)
              else Mem.wrap64 ((page - 1) * pageSize + pageSize))) := by
        intro hcon
        omega
      rw [if_neg hcond]

/-- Witness for C10 (amended): page 1 never panics on the empty store; page 0
with pageSize 1 panics on a one-element store. -/
theorem listPageWrap_bounds_safety_witness :
    (Mem.listPageWrap [] 1 10).isSome = true ∧
      Mem.listPageWrap [wProd] 0 1 = none :=
  ⟨(listPageWrap_bounds_safety [] 1 10).1 (by norm_num) (by norm_num)
      (by norm_num) (by norm_num),
   ((listPageWrap_bounds_safety [wProd] 0 1).2 (by norm_num) (by norm_num)
      (by norm_num)).2⟩

/-- C6: for any dataset and pageSize in [1,100], concatenating the in-memory
pages 1, 2, ... until the first empty page enumerates every product exactly
once (the concatenation is the dataset itself). -/
theorem pagination_enumerates_all (ps : List Product) (s : Int)
    (h1 : 1 ≤ s) (h100 : s ≤ 100) :
    harvest ps s 1 (ps.length + 1) = ps := by
  have hcond : (ps.length : Int) ≤ ((1 : Int) - 1 + ((ps.length + 1 : Nat) : Int)) * s := by
    have hmul : ((1 : Int) - 1 + ((ps.length + 1 : Nat) : Int)) * s =
        ((ps.length : Int) + 1) * s := by
      push_cast
      ring
    rw [hmul]
    have hstep : ((ps.length : Int) + 1) * 1 ≤ ((ps.length : Int) + 1) * s :=
      mul_le_mul_of_nonneg_left h1 (by positivity)
    linarith
  rw [harvest_eq_drop ps s h1 (ps.length + 1) 1 le_rfl hcond]
  simp

/-- Witness for C6: page size 2 over a three-product store. -/
theorem pagination_enumerates_all_witness :
    harvest [wProd, wProd2, wProd] 2 1 ([wProd, wProd2, wProd].length + 1) =
      [wProd, wProd2, wProd] :=
  pagination_enumerates_all [wProd, wProd2, wProd] 2 (by norm_num) (by norm_num)

/-- C9: every generated product's name is one adjective from the fixed list
joined by a space with one noun from the fixed product-type list, its
description is "A " plus the lowercased name plus " designed for modern
needs.", and its price lies in [10, 1000) whenever the unit draw does;
GenerateRandomProducts returns exactly count such records, the i-th carrying
the i-th freshly assigned id. -/
theorem generator_products_shape (count : Nat)
    (freshIds adjDraws typeDraws : Nat → Nat) (us : Nat → Rat)
    (hus : ∀ i, 0 ≤ us i ∧ us i < 1) :
    (GenerateRandomProducts count freshIds adjDraws typeDraws us).length = count ∧
    (GenerateRandomProducts count freshIds adjDraws typeDraws us).map
        RandomProduct.id = (List.range count).map freshIds ∧
    ∀ rp ∈ GenerateRandomProducts count freshIds adjDraws typeDraws us,
      (∃ a ∈ adjectives, ∃ t ∈ productTypes, rp.name = a ++ " " ++ t) ∧
      rp.description = "A " ++ rp.name.toLower ++ " designed for modern needs." ∧
      10 ≤ rp.price ∧ rp.price < 1000 := by
  refine ⟨by simp [GenerateRandomProducts], ?_, ?_⟩
  · unfold GenerateRandomProducts
    rw [List.map_map]
    rfl
  · intro rp hrp
    unfold GenerateRandomProducts at hrp
    rw [List.mem_map] at hrp
    obtain ⟨i, _, hrpeq⟩ := hrp
    obtain ⟨h0, h1⟩ := hus i
    obtain ⟨hname, hdesc, _, hp1, hp2⟩ :=
      generateRandomProduct_shape (freshIds i) (adjDraws i) (typeDraws i) (us i) h0 h1
    rw [← hrpeq]
    exact ⟨hname, hdesc, hp1, hp2⟩

/-- Witness for C9: three draws with the identity id supply and the unit draw
one half. -/
theorem generator_products_shape_witness :
    (GenerateRandomProducts 3 (fun i => i) (fun _ => 0) (fun _ => 0)
      (fun _ => 1 / 2)).length = 3 :=
  (generator_products_shape 3 (fun i => i) (fun _ => 0) (fun _ => 0)
    (fun _ => 1 / 2) (fun _ => ⟨by norm_num, by norm_num⟩)).1

/-- C3: after any sequence of repository calls on the initially empty
in-memory backend — creates through ToProduct, bulk generation, reads,
updates, deletes, delete-all, count — every product of the dataset satisfies
created_at ≤ updated_at, and no two distinct products share an id (given the
runtime facts that the clock is monotone and generated uuids are fresh). -/
theorem dataset_invariants (ops : List Op) (hok : SeqOK [] 0 ops) :
    (∀ p ∈ runOps [] 0 ops, p.created_at ≤ p.updated_at) ∧
    ((runOps [] 0 ops).map Product.id).Nodup := by
  have hbase : Inv [] 0 := ⟨by simp, by simp⟩
  obtain ⟨c2, hinv⟩ := inv_run ops [] 0 hbase hok
  exact ⟨fun p hp => (hinv.1 p hp).1, hinv.2⟩

/-- Witness for C3: a create, an update of the created id, and a delete. -/
theorem dataset_invariants_witness :
    ((runOps [] 0 [Op.create wReq 1 5, Op.update 1 wReq 6, Op.delete 1]).map
      Product.id).Nodup :=
  (dataset_invariants [Op.create wReq 1 5, Op.update 1 wReq 6, Op.delete 1]
    ⟨⟨by norm_num, by simp⟩,
     ⟨by show (5 : Nat) ≤ 6; norm_num, trivial, trivial⟩⟩).2

/-- Counterexample to C8: the same call on the same dataset has different
success/failure outcomes on the two backends. Updating id 7 on the empty
dataset fails with not-found in memory but succeeds (nil error, zero rows
affected, unchanged table) on the persistent backend, so the backends do not
produce the same outcome for every sequence of calls. -/
theorem backends_diverge_on_update_missing :
    Mem.update [] 7 wReq 9 = none ∧ Db.update [] 7 wReq 9 = [] :=
  ⟨rfl, rfl⟩

/-- C8 (amended): on datasets equal as multisets with pairwise-distinct ids,
the backends agree — same success/failure outcome and same data up to
ordering — on Count, GetByID, GetAll, Create and CreateBulk of fresh ids,
Update of a present id, Delete, and DeleteAll; the exceptions forced by the
code are Update of a missing id (persistent succeeds, memory fails) and the
result ordering of List/GetAll (insertion order vs created_at descending). -/
theorem backends_agree_up_to_order (ps rows : List Product)
    (hperm : ps.Perm rows) (hnd : (ps.map Product.id).Nodup) :
    Mem.count ps = Db.count rows ∧
    (∀ id, Mem.getByID ps id = none ↔ Db.getByID rows id = none) ∧
    (∀ id p q, Mem.getByID ps id = some p → Db.getByID rows id = some q →
      p = q) ∧
    (Mem.getAll ps).Perm (Db.getAll rows) ∧
    (∀ p, (∀ q ∈ ps, q.id ≠ p.id) →
      Db.create rows p = Except.ok (rows ++ [p]) ∧
      (Mem.create ps p).Perm (rows ++ [p])) ∧
    (∀ batch, (batch.map Product.id).Nodup →
      (∀ q ∈ ps, ∀ p ∈ batch, q.id ≠ p.id) →
      Db.createBulk rows batch = (rows ++ batch, none) ∧
      (Mem.createBulk ps batch).Perm (rows ++ batch)) ∧
    (∀ id req now, (∃ p ∈ ps, p.id = id) →
      ∃ qs, Mem.update ps id req now = some qs ∧
        qs.Perm (Db.update rows id req now)) ∧
    (∀ id, (Mem.delete ps id = none ↔ Db.delete rows id = none)) ∧
    (∀ id qs rs, Mem.delete ps id = some qs → Db.delete rows id = some rs →
      qs.Perm rs) ∧
    Mem.deleteAll ps = Db.deleteAll rows := by
  have hfreshRows : ∀ {x : Product}, (∀ q ∈ ps, q.id ≠ x.id) →
      ∀ r ∈ rows, r.id ≠ x.id := by
    intro x hfresh r hr
    exact hfresh r (hperm.mem_iff.mpr hr)
  refine ⟨hperm.length_eq, ?_, ?_, ?_, ?_, ?_, ?_, ?_, ?_, rfl⟩
  · intro id
    unfold Mem.getByID Db.getByID
    rw [List.find?_eq_none, List.find?_eq_none]
    constructor
    · intro h r hr
      exact h r (hperm.mem_iff.mpr hr)
    · intro h q hq
      exact h q (hperm.mem_iff.mp hq)
  · intro id p q hp hq
    unfold Mem.getByID at hp
    unfold Db.getByID at hq
    have hpmem : p ∈ ps := List.mem_of_find?_eq_some hp
    have hqmem : q ∈ ps := hperm.mem_iff.mpr (List.mem_of_find?_eq_some hq)
    have hpid : p.id = id := by simpa using List.find?_some hp
    have hqid : q.id = id := by simpa using List.find?_some hq
    exact List.inj_on_of_nodup_map hnd hpmem hqmem (by rw [hpid, hqid])
  · unfold Mem.getAll Db.getAll
    exact hperm.trans (List.mergeSort_perm rows _).symm
  · intro p hfresh
    constructor
    · unfold Db.create Db.insertRow
      rw [if_neg ?_]
      rw [List.any_eq_true]
      rintro ⟨r, hr, hrid⟩
      exact hfreshRows hfresh r hr (by simpa using hrid)
    · exact hperm.append (List.Perm.refl [p])
  · intro batch hbnd hbfresh
    have hbfreshRows : ∀ q ∈ rows, ∀ p ∈ batch, q.id ≠ p.id := by
      intro q hq p hp
      exact hbfresh q (hperm.mem_iff.mpr hq) p hp
    constructor
    · unfold Db.createBulk
      rw [createBulkTx_ok_of_fresh batch rows hbnd hbfreshRows]
    · exact hperm.append (List.Perm.refl batch)
  · rintro id req now ⟨p, hp, hpid⟩
    subst hpid
    refine ⟨_, update_eq_map ps p req now hnd hp, ?_⟩
    unfold Db.update
    have hfun : (fun q : Product =>
        if q.id = p.id then
          { q with
            name := req.name
            description := req.description
            price := req.price
            updated_at := now }
        else q) = (fun r : Product =>
        if r.id == p.id then
          { r with
            name := req.name
            description := req.description
            price := req.price
            updated_at := now }
        else r) := by
      funext q
      by_cases hq : q.id = p.id
      · rw [if_pos hq, if_pos (by simpa using hq)]
      · rw [if_neg hq, if_neg (by simpa using hq)]
    rw [hfun]
    exact hperm.map _
  · intro id
    have hmem : Mem.delete ps id = none ↔
        ∀ q ∈ ps, (q.id == id) = false := by
      unfold Mem.delete
      rw [← List.findIdx?_eq_none_iff]
      cases hfind : ps.findIdx? (fun p => p.id == id) with
      | some i => simp
      | none => simp
    have hdb : Db.delete rows id = none ↔
        ∀ r ∈ rows, (r.id == id) = false := by
      unfold Db.delete
      by_cases hany : rows.any (fun r => r.id == id)
      · rw [if_pos hany]
        rw [List.any_eq_true] at hany
        obtain ⟨r, hr, hrid⟩ := hany
        constructor
        · intro h
          cases h
        · intro h
          rw [h r hr] at hrid
          cases hrid
      · rw [if_neg hany]
        rw [List.any_eq_true] at hany
        constructor
        · intro _ r hr
          by_contra hcon
          exact hany ⟨r, hr, by simpa using hcon⟩
        · intro _
          rfl
    rw [hmem, hdb]
    constructor
    · intro h r hr
      exact h r (hperm.mem_iff.mpr hr)
    · intro h q hq
      exact h q (hperm.mem_iff.mp hq)
  · intro id qs rs hqs hrs
    unfold Mem.delete at hqs
    cases hfind : ps.findIdx? (fun p => p.id == id) with
    | none => rw [hfind] at hqs; cases hqs
    | some i =>
        rw [hfind] at hqs
        have hqs2 : qs = Mem.swapRemove ps i := by
          cases hqs
          rfl
        subst hqs2
        obtain ⟨hlt, hpi⟩ := findIdx?_found hfind
        have hpid : ps[i].id = id := by simpa using hpi
        have hperm2 := swapRemove_perm ps i hlt
        have hrs2 : rs = rows.filter (fun r => !(r.id == id)) := by
          unfold Db.delete at hrs
          by_cases hany : rows.any (fun r => r.id == id)
          · rw [if_pos hany] at hrs
            cases hrs
            rfl
          · rw [if_neg hany] at hrs
            cases hrs
        subst hrs2
        have hids2 : ((ps[i] :: Mem.swapRemove ps i).map Product.id).Nodup :=
          (hperm2.map Product.id).nodup_iff.mpr hnd
        rw [List.map_cons, List.nodup_cons] at hids2
        have hqsid : ∀ q ∈ Mem.swapRemove ps i, (q.id == id) = false := by
          intro q hq
          by_contra hcon
          have hqid : q.id = id := by simpa using hcon
          apply hids2.1
          have hmm : q.id ∈ List.map Product.id (Mem.swapRemove ps i) :=
            List.mem_map_of_mem Product.id hq
          rwa [hqid, ← hpid] at hmm
    -- filter both sides of the swap-remove permutation
        have hstep := hperm2.filter (fun r => !(r.id == id))
        have hl : (ps[i] :: Mem.swapRemove ps i).filter (fun r => !(r.id == id)) =
            Mem.swapRemove ps i := by
          rw [List.filter_cons]
          have hcond : ¬((!(ps[i].id == id)) = true) := by simp [hpid]
          rw [if_neg hcond, List.filter_eq_self]
          intro a ha
          simp [hqsid a ha]
        rw [hl] at hstep
        exact hstep.trans (hperm.filter _)

/-- Witness for C8 (amended): count and get-by-id agreement on a concrete
one-product dataset held by both backends. -/
theorem backends_agree_up_to_order_witness :
    Mem.count [wProd2] = Db.count [wProd2] ∧
      (Mem.getAll [wProd2]).Perm (Db.getAll [wProd2]) := by
  have h := backends_agree_up_to_order [wProd2] [wProd2] (List.Perm.refl _)
    (by simp)
  exact ⟨h.1, h.2.2.2.1⟩

end ProductService
